import Mathlib

/- Verification of the Markov-chain question-answering system: a shallow
embedding of the trainer (Markov chain construction, keyword search),
the tokenizer, and the answer generator (entropy analysis, thematic
selection, guided continuation), with theorems settling the specified
properties.

Modelling conventions:
* Go maps are modelled as association lists in insertion order; `lookup`
  returns an `Option`, `update` mutates in place or appends.  Where the
  behaviour of the Go program depends on the (unspecified) iteration
  order of a map, the model takes the iteration order as an explicit
  parameter and the theorems quantify over (or exhibit) admissible
  orders, i.e. permutations of the map's entries.
* Go float64 arithmetic is modelled exactly: probabilities and weights
  range over an arbitrary linear ordered field (instantiated at ℚ for
  concrete evaluation and at ℝ where logarithms are needed); entropy
  values, which involve log2, are pinned down by Prop-level relations
  over ℝ.
* Go byte-length `len(s)` is modelled by `String.utf8ByteSize`.
-/

namespace MarkovSpec

/-- Keys of an association list, in insertion order. -/
def keys {β : Type} (m : List (String × β)) : List String :=
  m.map Prod.fst

/-- Lookup in an association list, first match wins (Go map read). -/
def lookup {β : Type} : List (String × β) → String → Option β
  | [], _ => none
  | (k, v) :: rest, key => if k = key then some v else lookup rest key

/-- Lookup with a default value (Go map read returning the zero value). -/
def lookupD {β : Type} (m : List (String × β)) (key : String) (d : β) : β :=
  (lookup m key).getD d

/-- Go map write `m[key] = f(m[key])`: replace in place if the key is
present, otherwise append the new binding. -/
def update {β : Type} : List (String × β) → String → (Option β → β) → List (String × β)
  | [], key, f => [(key, f none)]
  | (k, v) :: rest, key, f =>
    if k = key then (k, f (some v)) :: rest else (k, v) :: update rest key f

theorem lookup_update_self {β : Type} (m : List (String × β)) (key : String)
    (f : Option β → β) : lookup (update m key f) key = some (f (lookup m key)) := by
  induction m with
  | nil => simp [update, lookup]
  | cons hd tl ih =>
    obtain ⟨k, v⟩ := hd
    by_cases h : k = key
    · simp [update, lookup, h]
    · simp [update, lookup, h, ih]

theorem lookup_update_ne {β : Type} (m : List (String × β)) (key key' : String)
    (f : Option β → β) (h : key ≠ key') :
    lookup (update m key f) key' = lookup m key' := by
  induction m with
  | nil => simp [update, lookup, h]
  | cons hd tl ih =>
    obtain ⟨k, v⟩ := hd
    by_cases hk : k = key
    · subst hk
      simp [update, lookup, h]
    · simp [update, lookup, hk, ih]

theorem keys_cons {β : Type} (k : String) (v : β) (tl : List (String × β)) :
    keys ((k, v) :: tl) = k :: keys tl := rfl

theorem keys_update_mem {β : Type} (m : List (String × β)) (key : String)
    (f : Option β → β) (h : key ∈ keys m) : keys (update m key f) = keys m := by
  induction m with
  | nil => simp [keys] at h
  | cons hd tl ih =>
    obtain ⟨k, v⟩ := hd
    by_cases hk : k = key
    · simp [update, keys, hk]
    · have h' : key ∈ keys tl := by
        rcases List.mem_cons.mp (keys_cons k v tl ▸ h) with h0 | h0
        · exact absurd h0.symm hk
        · exact h0
      have hrec := ih h'
      simp [update, keys, hk] at hrec ⊢
      exact hrec

theorem keys_update_not_mem {β : Type} (m : List (String × β)) (key : String)
    (f : Option β → β) (h : key ∉ keys m) :
    keys (update m key f) = keys m ++ [key] := by
  induction m with
  | nil => simp [update, keys]
  | cons hd tl ih =>
    obtain ⟨k, v⟩ := hd
    have hk : k ≠ key := by
      intro hk
      exact h (by simp [keys, hk])
    have h' : key ∉ keys tl := by
      intro hmem
      exact h (by simp [keys]; right; exact (by simpa [keys] using hmem))
    have := ih h'
    simp [update, keys, hk] at this ⊢
    exact this

theorem nodup_keys_update {β : Type} (m : List (String × β)) (key : String)
    (f : Option β → β) (h : (keys m).Nodup) : (keys (update m key f)).Nodup := by
  by_cases hmem : key ∈ keys m
  · rw [keys_update_mem m key f hmem]; exact h
  · rw [keys_update_not_mem m key f hmem]
    simpa [List.nodup_append] using ⟨h, hmem⟩

/-- When the keys are distinct, any binding occurring in the list is the
binding returned by lookup. -/
theorem lookup_of_mem_nodup {β : Type} (m : List (String × β)) (k : String) (v : β)
    (hmem : (k, v) ∈ m) (hnd : (keys m).Nodup) : lookup m k = some v := by
  induction m with
  | nil => simp at hmem
  | cons hd tl ih =>
    obtain ⟨k', v'⟩ := hd
    have hnd' : k' ∉ keys tl ∧ (keys tl).Nodup := by
      simpa [keys] using hnd
    rcases List.mem_cons.mp hmem with h | h
    · have h1 : k' = k := by injection h with ha hb; exact ha.symm
      have h2 : v' = v := by injection h with ha hb; exact hb.symm
      simp [lookup, h1, h2]
    · have hk : k' ≠ k := by
        intro he
        exact hnd'.1 (he ▸ (by simpa [keys] using List.mem_map_of_mem Prod.fst h))
      simp [lookup, hk]
      exact ih h hnd'.2

/-- Markov chain model (trainer.MarkovChain), with Go maps as insertion
ordered association lists. -/
structure MarkovChain where
  Order : Nat
  Chain : List (String × List (String × Nat))
  Sums : List (String × Nat)
  Index : List (String × List String)
  Vocab : List (String × Nat)
  Topics : List (String × List String)
deriving DecidableEq

/-- Training settings (trainer.TrainConfig; SaveModel/ModelPath concern
on-disk persistence, outside the embedded core). -/
structure TrainConfig where
  Order : Nat
  MinFrequency : Nat
deriving DecidableEq

/-- trainer.NewMarkovTrainer: fresh chain with empty maps. -/
def NewMarkovTrainer (config : TrainConfig) : MarkovChain :=
  { Order := config.Order, Chain := [], Sums := [], Index := [], Vocab := [], Topics := [] }

/-- Join strings with a separator (strings.Join / the separators printed
by fmt.Sprintf("%v", ·)). -/
def joinWith (sep : String) : List String → String
  | [] => ""
  | t :: ts => ts.foldl (fun acc x => acc ++ sep ++ x) t

/-- trainer.joinTokens: Go fmt.Sprintf("%v", tokens) renders a string
slice as the elements joined by single spaces inside square brackets. -/
def joinTokens (tokens : List String) : String :=
  "[" ++ joinWith " " tokens ++ "]"

/-- trainer.isPunctuation: the token equals one of the six single
punctuation characters. -/
def isPunctuation (token : String) : Bool :=
  token = "," ∨ token = "." ∨ token = "!" ∨ token = "?" ∨ token = ";" ∨ token = ":"

/-- trainer.joinSentence: join tokens with spaces, omitting the space
before punctuation tokens. -/
def joinSentence (tokens : List String) : String :=
  (tokens.foldl (fun acc token =>
    (acc.1 ++ (if acc.2 && !(isPunctuation token) then " " else "") ++ token, true))
    (("" : String), false)).1

/-- Deduplicate a sentence list keeping first occurrences (the unique-map
pass at the end of buildIndexAndVocab). -/
def dedupFirstSeen : List String → List String → List String
  | _, [] => []
  | seen, s :: rest =>
    if s ∈ seen then dedupFirstSeen seen rest
    else s :: dedupFirstSeen (s :: seen) rest

/-- Registration of one token of one sentence into Vocab and Index (the
inner loop body of buildIndexAndVocab): boundary markers are skipped. -/
def indexVocabToken (originalSentence : String) (acc2 : MarkovChain)
    (token : String) : MarkovChain :=
  if token = "<start>" ∨ token = "<end>" then acc2
  else { acc2 with
    Vocab := update acc2.Vocab token (fun o => o.getD 0 + 1),
    Index := update acc2.Index token (fun o => o.getD [] ++ [originalSentence]) }

/-- Registration of one sentence into Vocab and Index. -/
def indexVocabSentence (acc : MarkovChain) (sentence : List String) : MarkovChain :=
  sentence.foldl (indexVocabToken (joinSentence sentence)) acc

/-- trainer.buildIndexAndVocab: register every non-boundary token of every
sentence into Vocab (count) and Index (list of rendered sentences), then
deduplicate each index entry preserving first-seen order. -/
def buildIndexAndVocab (mc : MarkovChain) (sentences : List (List String)) : MarkovChain :=
  let mc1 := sentences.foldl indexVocabSentence mc
  { mc1 with Index := mc1.Index.map (fun wl => (wl.1, dedupFirstSeen [] wl.2)) }

/-- One window of trainer.processSentence: increment
Chain[prefix][suffix] for the window starting at i. -/
def addWindow (sentence : List String) (order : Nat)
    (ch : List (String × List (String × Nat))) (i : Nat) :
    List (String × List (String × Nat)) :=
  update ch (joinTokens ((sentence.drop i).take (order - 1)))
    (fun o => update (o.getD []) (sentence.getD (i + order - 1) "")
      (fun c => c.getD 0 + 1))

/-- trainer.processSentence: slide a window of width Order with stride 1,
incrementing Chain[prefix][suffix]; sentences shorter than Order are
skipped. -/
def processSentence (mc : MarkovChain) (sentence : List String) : MarkovChain :=
  if sentence.length < mc.Order then mc
  else { mc with Chain :=
    (List.range (sentence.length - mc.Order + 1)).foldl (addWindow sentence mc.Order) mc.Chain }

/-- Total of the successor counts of one chain entry (the inner loop of
calculateSums and of calculateEntropy). -/
def sumCounts (suffixes : List (String × Nat)) : Nat :=
  (suffixes.map Prod.snd).sum

/-- One assignment of trainer.calculateSums: Sums[prefix] = sum of the
entry's successor counts. -/
def sumsStep (s : List (String × Nat)) (pc : String × List (String × Nat)) :
    List (String × Nat) :=
  update s pc.1 (fun _ => sumCounts pc.2)

/-- trainer.calculateSums: recompute Sums[prefix] by full summation over
each chain entry. -/
def calculateSums (mc : MarkovChain) : MarkovChain :=
  { mc with Sums := mc.Chain.foldl sumsStep mc.Sums }

/-- trainer.Train: error when there are no sentences (receiver untouched),
otherwise build index/vocab, process every sentence into the chain and
recompute the sums.  The Go method mutates its receiver and returns only
an error; the model returns the final receiver state together with the
optional error message. -/
def Train (mc : MarkovChain) (tokenizedSentences : List (List String)) :
    MarkovChain × Option String :=
  if tokenizedSentences = [] then (mc, some "no data to train on")
  else
    let mc1 := buildIndexAndVocab mc tokenizedSentences
    let mc2 := tokenizedSentences.foldl processSentence mc1
    (calculateSums mc2, none)

/-- trainer.GetNextTokens: probability map count/Sums[key] over the
successors of the serialized prefix, or none when the prefix-key is
absent.  Weights are exact field elements standing for the float64
divisions. -/
def GetNextTokens (α : Type) [LinearOrderedField α] (mc : MarkovChain)
    (pfxTokens : List String) : Option (List (String × α)) :=
  match lookup mc.Chain (joinTokens pfxTokens) with
  | none => none
  | some suffixes =>
    let total : α := (lookupD mc.Sums (joinTokens pfxTokens) 0 : Nat)
    some (suffixes.map (fun sc => (sc.1, (sc.2 : Nat) / total)))

/-- Score accumulation of trainer.Search: one increment per occurrence of
a sentence in the index entry of each queried keyword, insertion
ordered. -/
def sentenceScores (mc : MarkovChain) (keywords : List String) : List (String × Nat) :=
  keywords.foldl (fun acc keyword =>
    match lookup mc.Index keyword with
    | some sentences => sentences.foldl (fun a s => update a s (fun o => o.getD 0 + 1)) acc
    | none => acc) []

/-- Insert one scored sentence into a list sorted by strictly descending
score, after all entries of greater or equal score (the order produced by
Go sort.Slice with less = score i > score j, applied to one admissible
iteration order of the scores map). -/
def insertScored (x : String × Nat) : List (String × Nat) → List (String × Nat)
  | [] => [x]
  | y :: ys => if y.2 ≤ x.2 then x :: y :: ys else y :: insertScored x ys

/-- Sort scored sentences by non-increasing score, keeping the relative
order of equal scores (stability makes the dependence on the map
iteration order explicit). -/
def sortScoredDesc (l : List (String × Nat)) : List (String × Nat) :=
  l.foldr insertScored []

/-- trainer.Search given one admissible iteration order of the
sentenceScores map: sort by descending score and return the first `limit`
sentences.  Go iterates the map in unspecified order; `scored` is that
enumeration. -/
def SearchOrd (limit : Nat) (scored : List (String × Nat)) : List String :=
  ((sortScoredDesc scored).take limit).map Prod.fst

/-- trainer.Search, with the unspecified Go map iteration order supplied
by the oracle `enum` (admissible runs satisfy `(enum m).Perm m`). -/
def SearchGo (mc : MarkovChain) (keywords : List String) (limit : Nat)
    (enum : List (String × Nat) → List (String × Nat)) : List String :=
  SearchOrd limit (enum (sentenceScores mc keywords))

/-- Punctuation runes of the tokenizer regex `[.!?,;:'"()\[\]{}…–—]`
(braces written by code point). -/
def punctuationRunes : List Char :=
  ['.', '!', '?', ',', ';', ':', '\'', '\"', '(', ')', '[', ']',
   Char.ofNat 123, Char.ofNat 125, '…', '–', '—']

/-- Space test of the tokenizer loop.  unicode.IsSpace is modelled by the
whitespace class of Lean chars. -/
def goIsSpace (c : Char) : Bool := c.isWhitespace

/-- Letter test of the tokenizer loop.  unicode.IsLetter is modelled for
the character ranges the corpus uses: ASCII letters plus the Cyrillic
block. -/
def goIsLetter (c : Char) : Bool :=
  c.isAlpha || (0x400 ≤ c.toNat && c.toNat ≤ 0x4FF)

/-- Characters a word token is made of: letters, digits and hyphen
(the regex `[\p{L}\p{N}-]+`, restricted to the modelled ranges). -/
def wordRune (c : Char) : Bool :=
  goIsLetter c || c.isDigit || c = '-'

/-- tokenizer.isPunctuation on a rune. -/
def isPunctuationRune (c : Char) : Bool := punctuationRunes.contains c

theorem dropWhile_length_le {γ : Type} (p : γ → Bool) (l : List γ) :
    (l.dropWhile p).length ≤ l.length := by
  induction l with
  | nil => simp [List.dropWhile]
  | cons c rest ih =>
    by_cases h : p c
    · simp [List.dropWhile, h]
      omega
    · simp [List.dropWhile, h]

/-- tokenizer.tokenizeWithPunctuation: scan runes, emitting single
punctuation runes as tokens and maximal word runs as tokens, skipping
whitespace and everything else; the literal words "start" and "end" are
dropped.  Every step consumes at least one rune, so the structural fuel
(initialised to the rune count by tokenizeWithPunctuation) never runs
out. -/
def tokenizeWithPunctuationAux : Nat → List Char → List String
  | 0, _ => []
  | _ + 1, [] => []
  | fuel + 1, c :: rest =>
    if goIsSpace c then tokenizeWithPunctuationAux fuel rest
    else if isPunctuationRune c then
      String.mk [c] :: tokenizeWithPunctuationAux fuel rest
    else if wordRune c then
      let word := String.mk (c :: rest.takeWhile wordRune)
      let rest' := rest.dropWhile wordRune
      if word = "start" ∨ word = "end" then tokenizeWithPunctuationAux fuel rest'
      else word :: tokenizeWithPunctuationAux fuel rest'
    else tokenizeWithPunctuationAux fuel rest

/-- Entry point of the rune scan, with fuel covering the whole input. -/
def tokenizeWithPunctuation (l : List Char) : List String :=
  tokenizeWithPunctuationAux l.length l

/-- tokenizer.tokenizeWordsOnly: maximal runs of word characters, with a
run consisting of the single character "-" dropped (structural fuel as in
the punctuation scan). -/
def tokenizeWordsOnlyAux : Nat → List Char → List String
  | 0, _ => []
  | _ + 1, [] => []
  | fuel + 1, c :: rest =>
    if wordRune c then
      let word := String.mk (c :: rest.takeWhile wordRune)
      let rest' := rest.dropWhile wordRune
      if word = "-" then tokenizeWordsOnlyAux fuel rest'
      else word :: tokenizeWordsOnlyAux fuel rest'
    else tokenizeWordsOnlyAux fuel rest

/-- Entry point of the words-only scan, with fuel covering the input. -/
def tokenizeWordsOnly (l : List Char) : List String :=
  tokenizeWordsOnlyAux l.length l

/-- tokenizer.addSpecialTokens: wrap in the boundary markers; an empty
token list becomes just the two markers. -/
def addSpecialTokens (tokens : List String) : List String :=
  if tokens = [] then ["<start>", "<end>"]
  else "<start>" :: tokens ++ ["<end>"]

/-- Lower-casing of strings.ToLower, modelled on the character ranges
the corpus uses: ASCII letters and the Cyrillic block (А-Я and Ё). -/
def goToLower (c : Char) : Char :=
  if c.toNat < 128 then c.toLower
  else if 0x410 ≤ c.toNat ∧ c.toNat ≤ 0x42F then Char.ofNat (c.toNat + 0x20)
  else if c = 'Ё' then 'ё'
  else c

/-- tokenizer.Tokenize: lower-case, split according to the punctuation
mode, wrap in boundary markers. -/
def Tokenize (keepPunctuation : Bool) (text : String) : List String :=
  let lowered := text.toList.map goToLower
  addSpecialTokens
    (if keepPunctuation then tokenizeWithPunctuation lowered
     else tokenizeWordsOnly lowered)

/-- tokenizer.isPunctuationToken: Go tests the regex on the first BYTE of
the token; only an ASCII first character can match the class, so the
non-ASCII class members (…–—) never match here. -/
def isPunctuationToken (token : String) : Bool :=
  match token.toList with
  | [] => false
  | c :: _ =>
    if token = "<start>" ∨ token = "<end>" then false
    else (['.', '!', '?', ',', ';', ':', '\'', '\"', '(', ')', '[', ']',
           Char.ofNat 123, Char.ofNat 125] : List Char).contains c

/-- tokenizer.JoinTokens: join with spaces, omitting the space before
punctuation tokens. -/
def JoinTokens (tokens : List String) : String :=
  (tokens.foldl (fun acc token =>
    (acc.1 ++ (if acc.2 && !(isPunctuationToken token) then " " else "") ++ token, true))
    (("" : String), false)).1

/-- Generator settings (generator.Config). -/
structure Config (α : Type) where
  MaxLength : Nat
  UsePunctuation : Bool
  MaxThematicEntropy : α

/-- Answer generator state (generator.AnswerGenerator): the chain, the
tokenizer mode (ToLowerCase is always true), the length limit and the
derived token entropy map.  minEntropy/maxEntropy are only printed and
are not modelled. -/
structure AnswerGenerator (α : Type) where
  chain : MarkovChain
  keepPunctuation : Bool
  maxLength : Nat
  tokenEntropy : List (String × α)

/-- Split a character list on the space character (strings.Split with a
single-space separator). -/
def splitOnSpaceAux (acc : List Char) : List Char → List (List Char)
  | [] => [acc.reverse]
  | c :: rest =>
    if c = ' ' then acc.reverse :: splitOnSpaceAux [] rest
    else splitOnSpaceAux (c :: acc) rest

/-- Trim whitespace on both ends of a character list
(strings.TrimSpace). -/
def trimChars (l : List Char) : List Char :=
  ((l.dropWhile Char.isWhitespace).reverse.dropWhile Char.isWhitespace).reverse

/-- generator.parsePrefix (source name parsePrefix): strip one leading
"[" and one trailing "]", split on single spaces, trim each fragment and
drop empty ones. -/
def parsePrefixKey (key : String) : List String :=
  let cs := key.toList
  let cs1 := if cs.head? = some '[' then cs.drop 1 else cs
  let cleaned := if cs1.getLast? = some ']' then cs1.dropLast else cs1
  if cleaned = [] then []
  else ((splitOnSpaceAux [] cleaned).map (fun t => String.mk (trimChars t))).filter
    (fun t => t ≠ "")

/-- Insert into a lexicographically sorted list of strings. -/
def insertSortedString (s : String) : List String → List String
  | [] => [s]
  | t :: ts => if s ≤ t then s :: t :: ts else t :: insertSortedString s ts

/-- Lexicographic sort (Go sort.Strings). -/
def sortStrings (l : List String) : List String := l.foldr insertSortedString []

/-- generator.createContextKey: the context tokens sorted and joined by
"|" — an order-independent signature of the prefix. -/
def createContextKey (tokens : List String) : String :=
  joinWith "|" (sortStrings tokens)

/-- generator.addTokenContext: tokenContexts[token][contextKey]++ (a flat
increment of one). -/
def addTokenContext (token : String) (context : List String)
    (tokenContexts : List (String × List (String × Nat))) :
    List (String × List (String × Nat)) :=
  update tokenContexts token
    (fun o => update (o.getD []) (createContextKey context) (fun c => c.getD 0 + 1))

/-- Histogram accumulation loop of generator.analyzeEntropy: every token
of every prefix contributes one observation of that prefix's context key,
and every distinct successor of a prefix contributes one observation of
the same key. -/
def tokenContextsOf (chain : List (String × List (String × Nat))) :
    List (String × List (String × Nat)) :=
  chain.foldl (fun acc pc =>
    let prefixTokens := parsePrefixKey pc.1
    let acc1 := prefixTokens.foldl (fun a tok => addTokenContext tok prefixTokens a) acc
    pc.2.foldl (fun a sc => addTokenContext sc.1 prefixTokens a) acc1) []

/-- generator.calculateEntropy as a relation over exact reals: entropy is
accumulated by `entropy -= p * log2 p` over the histogram; a zero total
yields math.MaxFloat64 = (2^53-1)·2^971. -/
def calculateEntropyR (contexts : List (String × Nat)) (e : ℝ) : Prop :=
  let total := sumCounts contexts
  if total = 0 then e = (((2 ^ 53 - 1) * 2 ^ 971 : ℕ) : ℝ)
  else e = contexts.foldl (fun acc sc =>
    acc - ((sc.2 : ℝ) / (total : ℝ)) * Real.logb 2 ((sc.2 : ℝ) / (total : ℝ))) 0

/-- generator.analyzeEntropy: the entropy map assigns, in histogram
order, to every token of tokenContexts the entropy of its context
histogram. -/
def AnalyzesTo (mc : MarkovChain) (te : List (String × ℝ)) : Prop :=
  List.Forall₂ (fun th p => p.1 = th.1 ∧ calculateEntropyR th.2 p.2)
    (tokenContextsOf mc.Chain) te

/-- generator.NewAnswerGenerator: the constructor copies the chain, sets
the tokenizer mode from UsePunctuation, copies MaxLength and derives the
entropy map; Config.MaxThematicEntropy is never read. -/
def NewAnswerGeneratorRel (chain : MarkovChain) (config : Config ℝ)
    (g : AnswerGenerator ℝ) : Prop :=
  g.chain = chain ∧ g.keepPunctuation = config.UsePunctuation ∧
    g.maxLength = config.MaxLength ∧ AnalyzesTo chain g.tokenEntropy

/-- generator.isThematicToken: a recorded entropy strictly below the
hard-coded 2.0. -/
def isThematicToken {α : Type} [LinearOrderedField α] (g : AnswerGenerator α)
    (token : String) : Bool :=
  match lookup g.tokenEntropy token with
  | none => false
  | some e => decide (e < 2)

/-- generator.getThematicKeywords: the thematic subset, in order. -/
def getThematicKeywords {α : Type} [LinearOrderedField α] (g : AnswerGenerator α)
    (keywords : List String) : List String :=
  keywords.filter (fun keyword => isThematicToken g keyword)

/-- Stop-word set of generator.extractKeywords. -/
def stopWords : List String :=
  ["что", "как", "зачем", "почему", "где", "когда", "какой", "какая",
   "какое", "какие", "объясни", "расскажи", "пожалуйста", "мог", "бы", "ли",
   "<start>", "<end>"]

/-- generator.extractKeywords: tokenize the question and keep tokens that
are not stop-words, have Go byte-length > 1, and are not punctuation. -/
def extractKeywords {α : Type} (g : AnswerGenerator α) (question : String) : List String :=
  let tokens := Tokenize g.keepPunctuation question
  tokens.filter (fun token =>
    !(decide (token ∈ stopWords)) && decide (1 < token.utf8ByteSize) &&
      !(isPunctuation token))

/-- Inner double loop of generator.findBestSentence: the number of token
occurrences of the re-tokenized sentence that equal some keyword (the
keyword loop breaks after the first match, so each token occurrence
counts at most once). -/
def occScore (keepPunctuation : Bool) (keywords : List String) (sentence : String) : Nat :=
  (Tokenize keepPunctuation sentence).countP (fun token => keywords.contains token)

/-- generator.findBestSentence: fold keeping the first sentence whose
count of keyword-matching token occurrences strictly exceeds the best so
far (bestScore starts at −1, so an empty candidate list yields ""). -/
def findBestSentence {α : Type} (g : AnswerGenerator α) (sentences : List String)
    (keywords : List String) : String :=
  match sentences with
  | [] => ""
  | s0 :: _ =>
    (sentences.foldl (fun acc sentence =>
      if acc.1 < (occScore g.keepPunctuation keywords sentence : Int) then
        ((occScore g.keepPunctuation keywords sentence : Int), sentence)
      else acc) ((-1 : Int), s0)).2

/-- generator.findThematicStartPosition: scan windows (the loop bound
runs one index past the last full window, clamping the segment), skip
windows whose key is not in the chain, score keyword tokens by
1/(entropy+0.1) (0.5 when the entropy is unknown), keep the first window
of strictly maximal score. -/
def findThematicStartPosition {α : Type} [LinearOrderedField α] (g : AnswerGenerator α)
    (tokens keywords : List String) : Nat :=
  let n := g.chain.Order
  let iters := if n ≤ tokens.length + 1 then tokens.length + 2 - n else 0
  ((List.range iters).foldl (fun acc i =>
    let endIdx := min (i + n - 1) tokens.length
    let segment := (tokens.drop i).take (endIdx - i)
    if lookup g.chain.Chain (joinTokens segment) = none then acc
    else
      let score : α := segment.foldl (fun sc token =>
        if keywords.contains token then
          match lookup g.tokenEntropy token with
          | some e => sc + 1 / (e + 1 / 10)
          | none => sc + 1 / 2
        else sc) 0
      if acc.1 < score then (score, i) else acc) ((-1 : α), 0)).2

/-- Cumulative-weight scan of generator.selectNextToken: first candidate
in visiting order whose running total reaches r. -/
def selectCumulative {α : Type} [LinearOrderedField α] (r cumulative : α) :
    List (String × α) → Option String
  | [] => none
  | (token, prob) :: rest =>
    let c := cumulative + prob
    if r ≤ c then some token else selectCumulative r c rest

/-- Fallback of generator.selectNextToken: the candidate of strictly
maximal weight (first one wins; all-nonpositive weights give ""). -/
def maxTokenOf {α : Type} [LinearOrderedField α] (probabilities : List (String × α)) : String :=
  (probabilities.foldl (fun acc tp => if acc.2 < tp.2 then (tp.1, tp.2) else acc)
    (("" : String), (0 : α))).1

/-- generator.selectNextToken for one drawn r and one admissible
candidate visiting order (Go iterates the probabilities map in
unspecified order and draws r from a PRNG re-seeded with the clock on
every call). -/
def selectNextToken {α : Type} [LinearOrderedField α]
    (probabilities : List (String × α)) (r : α) : String :=
  match selectCumulative r 0 probabilities with
  | some token => token
  | none => maxTokenOf probabilities

/-- generator.selectThematicToken: multiply the probability of keyword
candidates by (3 − entropy) when their entropy is known and < 2, else by
1.5; renormalize when the total is positive; then sample. -/
def selectThematicToken {α : Type} [LinearOrderedField α] (g : AnswerGenerator α)
    (probabilities : List (String × α)) (keywords : List String) (r : α) : String :=
  let weighted := probabilities.map (fun tp =>
    if keywords.contains tp.1 then
      match lookup g.tokenEntropy tp.1 with
      | some e => if e < 2 then (tp.1, tp.2 * (3 - e)) else (tp.1, tp.2 * (3 / 2))
      | none => (tp.1, tp.2 * (3 / 2))
    else tp)
  let totalWeight := (weighted.map Prod.snd).sum
  let normalized :=
    if 0 < totalWeight then weighted.map (fun tp => (tp.1, tp.2 / totalWeight)) else weighted
  selectNextToken normalized r

/-- Context construction of the loop: the trailing Order−1 generated
tokens, or, when the output is still short, source tokens immediately
before the cursor followed by the whole output (Go max(0, ·) is the
truncated Nat subtraction). -/
def currentPrefixOf {α : Type} (g : AnswerGenerator α) (tokens result : List String)
    (currentPos : Nat) : List String :=
  if g.chain.Order - 1 ≤ result.length then
    result.drop (result.length - (g.chain.Order - 1))
  else
    ((tokens.drop (currentPos - (g.chain.Order - 1 - result.length))).take
      (currentPos - (currentPos - (g.chain.Order - 1 - result.length)))) ++ result

/-- Main loop of generator.generateThematicContinuation: while the output
is below maxLength, source tokens remain, and fewer than 10 consecutive
stalls have happened, build the Order−1 context, ask the chain for
successors; on success sample one biased token (stopping at "<end>",
resetting the stall counter), on failure copy the next source token and
count a stall.  Returns the output and the final source cursor.  `rng`
supplies the per-call float64 draws (Go re-seeds the global PRNG with the
clock on every draw); `draws` counts them. -/
def contLoop {α : Type} [LinearOrderedField α] (g : AnswerGenerator α)
    (tokens keywords : List String) (rng : Nat → α) (result : List String)
    (currentPos attempts draws : Nat) : List String × Nat :=
  if h : result.length < g.maxLength ∧ currentPos < tokens.length ∧ attempts < 10 then
    match GetNextTokens α g.chain (currentPrefixOf g tokens result currentPos) with
    | some nextTokens =>
      if nextTokens ≠ [] then
        if selectThematicToken g nextTokens keywords (rng draws) = "<end>" then
          (result, currentPos)
        else
          contLoop g tokens keywords rng
            (result ++ [selectThematicToken g nextTokens keywords (rng draws)])
            currentPos 0 (draws + 1)
      else
        if currentPos < tokens.length then
          contLoop g tokens keywords rng (result ++ [tokens.getD currentPos ""])
            (currentPos + 1) (attempts + 1) draws
        else contLoop g tokens keywords rng result currentPos (attempts + 1) draws
    | none =>
      if currentPos < tokens.length then
        contLoop g tokens keywords rng (result ++ [tokens.getD currentPos ""])
          (currentPos + 1) (attempts + 1) draws
      else contLoop g tokens keywords rng result currentPos (attempts + 1) draws
  else (result, currentPos)
termination_by (g.maxLength - result.length, 10 - attempts)
decreasing_by
  all_goals simp [Prod.lex_iff, List.length_append]
  all_goals omega

/-- generator.generateThematicContinuation, before the final join: copy
the tokens before the start position, run the loop, and when the result
is below half the length budget append the unconsumed source tokens up to
the remaining budget. -/
def generateThematicContinuationTokens {α : Type} [LinearOrderedField α]
    (g : AnswerGenerator α) (tokens : List String) (startPos : Nat)
    (keywords : List String) (rng : Nat → α) : List String :=
  let result0 := if 0 < startPos then tokens.take startPos else []
  let lr := contLoop g tokens keywords rng result0 startPos 0 0
  if lr.1.length < g.maxLength / 2 ∧ lr.2 < tokens.length then
    let remaining := min (g.maxLength - lr.1.length) (tokens.length - lr.2)
    lr.1 ++ (tokens.drop lr.2).take remaining
  else lr.1

/-- generator.generateThematicContinuation: the token-level loop followed
by tokenizer.JoinTokens. -/
def generateThematicContinuation {α : Type} [LinearOrderedField α]
    (g : AnswerGenerator α) (tokens : List String) (startPos : Nat)
    (keywords : List String) (rng : Nat → α) : String :=
  JoinTokens (generateThematicContinuationTokens g tokens startPos keywords rng)

/-- generator.generateFromSentence: re-tokenize the chosen sentence, strip
boundary markers (returning the sentence verbatim when nothing remains),
locate the thematic start position and continue from there. -/
def generateFromSentence {α : Type} [LinearOrderedField α] (g : AnswerGenerator α)
    (sentence : String) (keywords : List String) (rng : Nat → α) : String :=
  let tokens := Tokenize g.keepPunctuation sentence
  let cleanTokens := tokens.filter (fun t => t ≠ "<start>" && t ≠ "<end>")
  if cleanTokens = [] then sentence
  else
    let startPos := findThematicStartPosition g cleanTokens keywords
    generateThematicContinuation g cleanTokens startPos keywords rng

/-- Whitespace-run collapse of formatAnswer (the regex `\s+` → " "),
with structural fuel consumed one character per step. -/
def collapseWhitespaceAux : Nat → List Char → List Char
  | 0, _ => []
  | _ + 1, [] => []
  | fuel + 1, c :: rest =>
    if c.isWhitespace then
      ' ' :: collapseWhitespaceAux fuel (rest.dropWhile Char.isWhitespace)
    else c :: collapseWhitespaceAux fuel rest

/-- Entry point of the whitespace collapse. -/
def collapseWhitespace (l : List Char) : List Char :=
  collapseWhitespaceAux l.length l

/-- Strip whitespace on the left. -/
def trimWsLeft (s : String) : String :=
  String.mk (s.toList.dropWhile Char.isWhitespace)

/-- Strip whitespace on the right. -/
def trimWsRight (s : String) : String :=
  String.mk (s.toList.reverse.dropWhile Char.isWhitespace).reverse

/-- Replacement of the regex `\s*SEP\s*` by "SEP ": the greedy matches
around every separator consume exactly the whitespace adjacent to it, so
each inter-separator fragment is trimmed on the separator sides. -/
def replaceAroundSep (sep : String) (s : String) : String :=
  match s.splitOn sep with
  | [] => s
  | [p] => p
  | p :: ps =>
    let middle := ps.dropLast.map (fun q => trimWsRight (trimWsLeft q))
    let lastPart := trimWsLeft (ps.getLastD "")
    String.intercalate (sep ++ " ") (trimWsRight p :: middle ++ [lastPart])

/-- Capitalisation of the first rune (unicode.ToUpper modelled on the
ASCII range; the claims never exercise it). -/
def capitalizeFirst (s : String) : String :=
  match s.toList with
  | [] => s
  | c :: rest => String.mk (c.toUpper :: rest)

/-- generator.formatAnswer: drop boundary-marker text, trim, collapse
whitespace, normalise spacing around commas and periods, trim again,
capitalise, and append a period when no terminal punctuation is
present. -/
def formatAnswer (answer : String) : String :=
  let a1 := (answer.replace "<start>" "").replace "<end>" ""
  let a2 := a1.trim
  let a3 := String.mk (collapseWhitespace a2.toList)
  let a4 := replaceAroundSep "," a3
  let a5 := replaceAroundSep "." a4
  let a6 := a5.trim
  let a7 := capitalizeFirst a6
  if a7 ≠ "" && !(a7.endsWith ".") && !(a7.endsWith "!") && !(a7.endsWith "?")
  then a7 ++ "." else a7

/-- Search-key selection of GenerateAnswer: the thematic subset when it
is non-empty, else all extracted keywords. -/
def searchKeywordsOf {α : Type} [LinearOrderedField α] (g : AnswerGenerator α)
    (keywords : List String) : List String :=
  let thematicKeywords := getThematicKeywords g keywords
  if thematicKeywords ≠ [] then thematicKeywords else keywords

/-- generator.GenerateAnswer: extract keywords (fixed clarification
message when none), prefer the thematic subset, retrieve candidates with
limit 5 (fixed not-found message when none), pick the best sentence,
continue from it and format.  `rng` supplies the PRNG draws and `enum`
the Go map iteration order used inside Search. -/
def GenerateAnswer {α : Type} [LinearOrderedField α] (g : AnswerGenerator α)
    (rng : Nat → α) (enum : List (String × Nat) → List (String × Nat))
    (question : String) : String :=
  let keywords := extractKeywords g question
  if keywords = [] then "Пожалуйста, задайте вопрос."
  else
    let searchKeywords := searchKeywordsOf g keywords
    let relevantSentences := SearchGo g.chain searchKeywords 5 enum
    if relevantSentences = [] then
      "К сожалению, я не нашел информации по вашему вопросу в изученном материале."
    else
      let bestSentence := findBestSentence g relevantSentences searchKeywords
      formatAnswer (generateFromSentence g bestSentence searchKeywords rng)

theorem lookup_mem {β : Type} (m : List (String × β)) (k : String) (v : β)
    (h : lookup m k = some v) : (k, v) ∈ m := by
  induction m with
  | nil => simp [lookup] at h
  | cons hd tl ih =>
    obtain ⟨k', v'⟩ := hd
    by_cases hk : k' = k
    · subst hk
      simp [lookup] at h
      simp [h]
    · simp [lookup, hk] at h
      exact List.mem_cons_of_mem _ (ih h)

/-- C9: Train rejects exactly the empty collection, leaving the model
untouched on that error, and succeeds on every non-empty collection. -/
theorem c9_train_error_iff_empty (mc : MarkovChain) (ss : List (List String)) :
    ((Train mc ss).2.isSome ↔ ss = []) ∧ (ss = [] → (Train mc ss).1 = mc) := by
  refine ⟨⟨fun h => ?_, fun h => ?_⟩, fun h => ?_⟩
  · by_contra hne
    simp [Train, hne] at h
  · simp [Train, h]
  · simp [Train, h]

/-- Witness for C9 at a concrete model: the empty corpus errors without
touching the model, one sentence trains without error. -/
theorem c9_witness :
    (Train (NewMarkovTrainer ⟨3, 0⟩) []).1 = NewMarkovTrainer ⟨3, 0⟩ ∧
    ¬ (Train (NewMarkovTrainer ⟨3, 0⟩) [["<start>", "a", "<end>"]]).2.isSome := by
  refine ⟨(c9_train_error_iff_empty _ _).2 rfl, fun hcontra => ?_⟩
  exact (by decide : ¬ ([["<start>", "a", "<end>"]] : List (List String)) = [])
    ((c9_train_error_iff_empty (NewMarkovTrainer ⟨3, 0⟩) _).1.mp hcontra)

theorem sum_map_div {α : Type} [LinearOrderedField α] (l : List (String × Nat)) (t : α) :
    (l.map (fun sc => ((sc.2 : Nat) : α) / t)).sum = ((sumCounts l : Nat) : α) / t := by
  induction l with
  | nil => simp [sumCounts]
  | cons hd tl ih =>
    have hs : sumCounts (hd :: tl) = hd.2 + sumCounts tl := by
      simp [sumCounts]
    rw [List.map_cons, List.sum_cons, ih, hs]
    push_cast
    rw [div_add_div_same]

/-- C10: GetNextTokens is none exactly when the serialized prefix-key is
absent; when present, every successor with count c is mapped to weight
c/Sums[key], and under the Sums invariant (with positive counts and a
non-empty successor map) the weights sum to exactly one. -/
theorem c10_getNextTokens_distribution (mc : MarkovChain) (pfxTokens : List String) :
    (GetNextTokens ℚ mc pfxTokens = none ↔ lookup mc.Chain (joinTokens pfxTokens) = none) ∧
    ∀ suffixes, lookup mc.Chain (joinTokens pfxTokens) = some suffixes →
      lookup mc.Sums (joinTokens pfxTokens) = some (sumCounts suffixes) →
      (∀ sc ∈ suffixes, 0 < sc.2) → suffixes ≠ [] →
      ∃ probs, GetNextTokens ℚ mc pfxTokens = some probs ∧
        (∀ sc ∈ suffixes, (sc.1, ((sc.2 : Nat) : ℚ) / ((sumCounts suffixes : Nat) : ℚ)) ∈ probs) ∧
        (probs.map Prod.snd).sum = 1 := by
  constructor
  · cases h : lookup mc.Chain (joinTokens pfxTokens) with
    | none => simp [GetNextTokens, h]
    | some suffixes => simp [GetNextTokens, h]
  · intro suffixes hchain hsums hpos hne
    refine ⟨suffixes.map (fun sc => (sc.1, ((sc.2 : Nat) : ℚ) / ((sumCounts suffixes : Nat) : ℚ))),
      ?_, ?_, ?_⟩
    · simp [GetNextTokens, hchain, lookupD, hsums]
    · intro sc hsc
      exact List.mem_map_of_mem _ hsc
    · have htot : (0 : ℚ) < ((sumCounts suffixes : Nat) : ℚ) := by
        obtain ⟨sc0, hsc0⟩ := List.exists_mem_of_ne_nil suffixes hne
        have h1 : 0 < sc0.2 := hpos sc0 hsc0
        have h2 : sc0.2 ≤ sumCounts suffixes := by
          have : sc0.2 ∈ suffixes.map Prod.snd := List.mem_map_of_mem _ hsc0
          exact List.single_le_sum (fun x _ => Nat.zero_le x) _ this
        have : 0 < sumCounts suffixes := lt_of_lt_of_le h1 h2
        exact_mod_cast this
      rw [List.map_map]
      have hrw : (Prod.snd ∘ fun sc : String × Nat =>
          (sc.1, ((sc.2 : Nat) : ℚ) / ((sumCounts suffixes : Nat) : ℚ))) =
          fun sc : String × Nat => ((sc.2 : Nat) : ℚ) / ((sumCounts suffixes : Nat) : ℚ) := rfl
      rw [hrw, sum_map_div]
      exact div_self (ne_of_gt htot)

/-- Witness for C10 on a trained two-successor model: the prefix "[a]"
yields the uniform distribution over its successors, summing to one. -/
theorem c10_witness :
    ∃ probs, GetNextTokens ℚ
        (Train (NewMarkovTrainer ⟨2, 0⟩)
          [["<start>", "a", "<end>"], ["<start>", "a", "b", "<end>"]]).1 ["a"] = some probs ∧
      (∀ sc ∈ [(("<end>" : String), 1), (("b" : String), 1)],
        (sc.1, ((sc.2 : Nat) : ℚ) / ((sumCounts [("<end>", 1), ("b", 1)] : Nat) : ℚ)) ∈ probs) ∧
      (probs.map Prod.snd).sum = 1 := by
  exact (c10_getNextTokens_distribution _ ["a"]).2 [("<end>", 1), ("b", 1)]
    (by decide) (by decide) (by decide) (by decide)

/-- Cumulative weight of the first n candidates in visiting order. -/
def cumWeight {α : Type} [LinearOrderedField α] (probs : List (String × α)) (n : Nat) : α :=
  ((probs.take n).map Prod.snd).sum

theorem cumWeight_cons {α : Type} [LinearOrderedField α] (t : String) (p : α)
    (rest : List (String × α)) (n : Nat) :
    cumWeight ((t, p) :: rest) (n + 1) = p + cumWeight rest n := by
  simp [cumWeight]

theorem selectCumulative_first {α : Type} [LinearOrderedField α] :
    ∀ (probs : List (String × α)) (r c : α) (i : Nat) (hi : i < probs.length),
      r ≤ c + cumWeight probs (i + 1) →
      (∀ j, j < i → ¬ r ≤ c + cumWeight probs (j + 1)) →
      selectCumulative r c probs = some (probs.get ⟨i, hi⟩).1 := by
  intro probs
  induction probs with
  | nil => intro r c i hi; simp at hi
  | cons hd rest ih =>
    obtain ⟨t, p⟩ := hd
    intro r c i hi hle hlt
    match i with
    | 0 =>
      have h0 : r ≤ c + p := by simpa [cumWeight_cons, cumWeight] using hle
      simp [selectCumulative, h0]
    | i' + 1 =>
      have hnot : ¬ r ≤ c + p := by
        have := hlt 0 (Nat.succ_pos i')
        simpa [cumWeight_cons, cumWeight] using this
      have hi' : i' < rest.length := by simpa using hi
      have hle' : r ≤ (c + p) + cumWeight rest (i' + 1) := by
        rw [cumWeight_cons] at hle
        linarith [hle]
      have hlt' : ∀ j, j < i' → ¬ r ≤ (c + p) + cumWeight rest (j + 1) := by
        intro j hj
        have := hlt (j + 1) (by omega)
        rw [cumWeight_cons] at this
        intro hcontra
        exact this (by linarith)
      simp [selectCumulative, hnot]
      exact ih r (c + p) i' hi' hle' hlt'

/-- C3 (amended): for one admissible visiting order of the weighted
candidates and one drawn r, the sampler returns the first candidate in
that order whose cumulative weight reaches r; the order is the
unspecified Go map iteration order (not fixed), and the PRNG is re-seeded
from the clock on every call rather than once at start-up. -/
theorem c3_sampler_first_cumulative {α : Type} [LinearOrderedField α]
    (probs : List (String × α)) (r : α) (i : Nat) (hi : i < probs.length)
    (hle : r ≤ cumWeight probs (i + 1))
    (hlt : ∀ j, j < i → ¬ r ≤ cumWeight probs (j + 1)) :
    selectNextToken probs r = (probs.get ⟨i, hi⟩).1 := by
  have h := selectCumulative_first probs r 0 i hi (by simpa using hle)
    (by intro j hj; simpa using hlt j hj)
  simp [selectNextToken, h]

/-- Witness for C3 (amended) at a concrete uniform distribution: r = 3/4
selects the second candidate. -/
theorem c3_witness :
    selectNextToken [("a", (1 : ℚ) / 2), ("b", (1 : ℚ) / 2)] (3 / 4) = "b" := by
  exact c3_sampler_first_cumulative [("a", (1 : ℚ) / 2), ("b", (1 : ℚ) / 2)] (3 / 4) 1
    (by decide) (by norm_num [cumWeight])
    (by intro j hj; interval_cases j; norm_num [cumWeight])

/-- Counterexample for C3 as stated: the same weighted map visited in two
admissible Go iteration orders yields different tokens for the same drawn
r, so the visiting order is not fixed and runs are not reproducible. -/
theorem c3_counterexample :
    ([(("a" : String), (1 : ℚ) / 2), ("b", (1 : ℚ) / 2)]).Perm
        [(("b" : String), (1 : ℚ) / 2), ("a", (1 : ℚ) / 2)] ∧
    selectNextToken [("a", (1 : ℚ) / 2), ("b", (1 : ℚ) / 2)] (1 / 4) = "a" ∧
    selectNextToken [("b", (1 : ℚ) / 2), ("a", (1 : ℚ) / 2)] (1 / 4) = "b" ∧
    ("a" : String) ≠ "b" := by
  refine ⟨List.Perm.swap _ _ _, ?_, ?_, by decide⟩ <;>
    norm_num [selectNextToken, selectCumulative]

/-- Shared concrete generator over ℚ in the chat configuration
(punctuation kept, empty entropy map). -/
def genQ (mc : MarkovChain) (maxLen : Nat) : AnswerGenerator ℚ :=
  ⟨mc, true, maxLen, []⟩

theorem foldBest_spec (f : String → Nat) :
    ∀ (l : List String) (sc : Int) (s : String),
      ((l.foldl (fun acc sentence =>
          if acc.1 < (f sentence : Int) then ((f sentence : Int), sentence) else acc)
          (sc, s) = (sc, s)) ∧ ∀ x ∈ l, (f x : Int) ≤ sc) ∨
      (∃ i, ∃ hi : i < l.length,
        (l.foldl (fun acc sentence =>
          if acc.1 < (f sentence : Int) then ((f sentence : Int), sentence) else acc)
          (sc, s) = ((f (l.get ⟨i, hi⟩) : Int), l.get ⟨i, hi⟩)) ∧
        sc < (f (l.get ⟨i, hi⟩) : Int) ∧
        (∀ j, ∀ hj : j < l.length, f (l.get ⟨j, hj⟩) ≤ f (l.get ⟨i, hi⟩)) ∧
        (∀ j, ∀ hj : j < i, f (l.get ⟨j, Nat.lt_trans hj hi⟩) < f (l.get ⟨i, hi⟩))) := by
  intro l
  induction l with
  | nil => intro sc s; left; simp
  | cons x xs ih =>
    intro sc s
    by_cases hx : sc < (f x : Int)
    · rcases ih (f x : Int) x with ⟨heq, hall⟩ | ⟨i', hi', heq, hgt, hmax, hfirst⟩
      · right
        refine ⟨0, by simp, ?_, hx, ?_, by omega⟩
        · simpa [hx] using heq
        · intro j hj
          match j with
          | 0 => simp
          | j' + 1 =>
            have hj' : j' < xs.length := by simpa using hj
            have := hall (xs.get ⟨j', hj'⟩) (xs.get_mem _ _)
            simp only [List.get_cons_succ, List.get_cons_zero]
            exact_mod_cast this
      · right
        refine ⟨i' + 1, by simpa using Nat.succ_lt_succ hi', ?_, ?_, ?_, ?_⟩
        · simpa [hx] using heq
        · exact lt_trans hx hgt
        · intro j hj
          match j with
          | 0 =>
            simp only [List.get_cons_succ, List.get_cons_zero]
            exact_mod_cast le_of_lt hgt
          | j' + 1 =>
            have hj' : j' < xs.length := by simpa using hj
            simpa using hmax j' hj'
        · intro j hj
          match j with
          | 0 =>
            simp only [List.get_cons_succ, List.get_cons_zero]
            exact_mod_cast hgt
          | j' + 1 =>
            have hj' : j' < i' := by omega
            simpa using hfirst j' hj'
    · rcases ih sc s with ⟨heq, hall⟩ | ⟨i', hi', heq, hgt, hmax, hfirst⟩
      · left
        constructor
        · simpa [hx] using heq
        · intro y hy
          rcases List.mem_cons.mp hy with hy | hy
          · subst hy; omega
          · exact hall y hy
      · right
        have hxle : (f x : Int) ≤ sc := by omega
        refine ⟨i' + 1, by simpa using Nat.succ_lt_succ hi', ?_, ?_, ?_, ?_⟩
        · simpa [hx] using heq
        · exact hgt
        · intro j hj
          match j with
          | 0 =>
            simp only [List.get_cons_succ, List.get_cons_zero]
            exact_mod_cast le_of_lt (lt_of_le_of_lt hxle hgt)
          | j' + 1 =>
            have hj' : j' < xs.length := by simpa using hj
            simpa using hmax j' hj'
        · intro j hj
          match j with
          | 0 =>
            simp only [List.get_cons_succ, List.get_cons_zero]
            exact_mod_cast lt_of_le_of_lt hxle hgt
          | j' + 1 =>
            have hj' : j' < i' := by omega
            simpa using hfirst j' hj'

/-- C5 (amended): on a non-empty candidate list, findBestSentence returns
the first sentence maximizing the number of keyword-matching token
occurrences after re-tokenization (not the number of distinct keywords
contained). -/
theorem c5_best_sentence_occurrence_argmax {α : Type} (g : AnswerGenerator α)
    (sentences keywords : List String) (h : sentences ≠ []) :
    ∃ i, ∃ hi : i < sentences.length,
      findBestSentence g sentences keywords = sentences.get ⟨i, hi⟩ ∧
      (∀ j, ∀ hj : j < sentences.length,
        occScore g.keepPunctuation keywords (sentences.get ⟨j, hj⟩) ≤
          occScore g.keepPunctuation keywords (sentences.get ⟨i, hi⟩)) ∧
      (∀ j, ∀ hj : j < i,
        occScore g.keepPunctuation keywords (sentences.get ⟨j, Nat.lt_trans hj hi⟩) <
          occScore g.keepPunctuation keywords (sentences.get ⟨i, hi⟩)) := by
  match sentences, h with
  | s0 :: rest, _ =>
    rcases foldBest_spec (occScore g.keepPunctuation keywords) (s0 :: rest) (-1) s0 with
      ⟨_, hall⟩ | ⟨i, hi, heq, _, hmax, hfirst⟩
    · exfalso
      have h0 := hall s0 (by simp)
      omega
    · refine ⟨i, hi, ?_, hmax, hfirst⟩
      simp only [findBestSentence]
      rw [heq]

/-- Witness for C5 (amended) at a concrete candidate pair: the first
sentence attains the maximal occurrence count and is returned. -/
theorem c5_witness :
    ∃ i, ∃ hi : i < (["a b", "a"] : List String).length,
      findBestSentence (genQ (NewMarkovTrainer ⟨3, 0⟩) 50) ["a b", "a"] ["a", "b"] =
        (["a b", "a"] : List String).get ⟨i, hi⟩ ∧
      (∀ j, ∀ hj : j < (["a b", "a"] : List String).length,
        occScore true ["a", "b"] ((["a b", "a"] : List String).get ⟨j, hj⟩) ≤
          occScore true ["a", "b"] ((["a b", "a"] : List String).get ⟨i, hi⟩)) ∧
      (∀ j, ∀ hj : j < i,
        occScore true ["a", "b"] ((["a b", "a"] : List String).get ⟨j, Nat.lt_trans hj hi⟩) <
          occScore true ["a", "b"] ((["a b", "a"] : List String).get ⟨i, hi⟩)) :=
  c5_best_sentence_occurrence_argmax (genQ (NewMarkovTrainer ⟨3, 0⟩) 50)
    ["a b", "a"] ["a", "b"] (by decide)

/-- Number of distinct queried keywords contained in the re-tokenized
sentence.  Modelled from the spec: "pick the one maximizing the count of
distinct search keywords it contains (re-tokenized)". -/
def distinctKeywordsContained (keepPunctuation : Bool) (sentence : String)
    (keywords : List String) : Nat :=
  keywords.countP (fun keyword => (Tokenize keepPunctuation sentence).contains keyword)

/-- Counterexample for C5 as stated: with keywords {a, b}, the sentence
"a a a" (three matching occurrences, one distinct keyword) is returned
over "a b" (two occurrences, two distinct keywords), so the returned
sentence does not maximize the distinct-keyword count. -/
theorem c5_counterexample :
    findBestSentence (genQ (NewMarkovTrainer ⟨3, 0⟩) 50) ["a a a", "a b"] ["a", "b"] = "a a a" ∧
    distinctKeywordsContained true "a a a" ["a", "b"] = 1 ∧
    distinctKeywordsContained true "a b" ["a", "b"] = 2 ∧
    ¬ distinctKeywordsContained true "a b" ["a", "b"] ≤
        distinctKeywordsContained true "a a a" ["a", "b"] := by
  refine ⟨by decide, by decide, by decide, by decide⟩

theorem contLoop_length_le {α : Type} [LinearOrderedField α] (g : AnswerGenerator α)
    (tokens keywords : List String) (rng : Nat → α) (result : List String)
    (currentPos attempts draws : Nat) :
    (contLoop g tokens keywords rng result currentPos attempts draws).1.length ≤
      max result.length g.maxLength := by
  induction result, currentPos, attempts, draws using contLoop.induct g tokens keywords rng with
  | case1 result currentPos attempts draws h nextTokens hnext hne hend =>
    rw [contLoop]
    simp only [dif_pos h, hnext, hne, if_pos hend, ite_not, if_neg hne]
    simp [hend]
  | case2 result currentPos attempts draws h nextTokens hnext hne hend ih =>
    rw [contLoop]
    simp only [dif_pos h, hnext, ite_not, if_neg hne, if_neg hend]
    simp only [List.length_append, List.length_cons, List.length_nil] at ih
    omega
  | case3 result currentPos attempts draws h nextTokens hnext hne hpos ih =>
    rw [contLoop]
    simp only [dif_pos h, hnext, ite_not, if_pos (by simpa using hne), if_pos hpos]
    simp only [List.length_append, List.length_cons, List.length_nil] at ih
    omega
  | case4 result currentPos attempts draws h nextTokens hnext hne hpos ih =>
    rw [contLoop]
    simp only [dif_pos h, hnext, ite_not, if_pos (by simpa using hne), if_neg hpos]
    omega
  | case5 result currentPos attempts draws h hnext hpos ih =>
    rw [contLoop]
    simp only [dif_pos h, hnext, if_pos hpos]
    simp only [List.length_append, List.length_cons, List.length_nil] at ih
    omega
  | case6 result currentPos attempts draws h hnext hpos ih =>
    rw [contLoop]
    simp only [dif_pos h, hnext, if_neg hpos]
    omega
  | case7 result currentPos attempts draws h =>
    rw [contLoop]
    simp only [dif_neg h]
    omega

theorem contLoop_stall_bound {α : Type} [LinearOrderedField α] (g : AnswerGenerator α)
    (tokens keywords : List String) (rng : Nat → α) (hchain : g.chain.Chain = [])
    (result : List String) (currentPos attempts draws : Nat) :
    (contLoop g tokens keywords rng result currentPos attempts draws).1.length ≤
      result.length + (10 - attempts) := by
  induction result, currentPos, attempts, draws using contLoop.induct g tokens keywords rng with
  | case1 result currentPos attempts draws h nextTokens hnext hne hend =>
    simp [GetNextTokens, hchain, lookup] at hnext
  | case2 result currentPos attempts draws h nextTokens hnext hne hend ih =>
    simp [GetNextTokens, hchain, lookup] at hnext
  | case3 result currentPos attempts draws h nextTokens hnext hne hpos ih =>
    simp [GetNextTokens, hchain, lookup] at hnext
  | case4 result currentPos attempts draws h nextTokens hnext hne hpos ih =>
    simp [GetNextTokens, hchain, lookup] at hnext
  | case5 result currentPos attempts draws h hnext hpos ih =>
    rw [contLoop]
    simp only [dif_pos h, hnext, if_pos hpos]
    simp only [List.length_append, List.length_cons, List.length_nil] at ih
    omega
  | case6 result currentPos attempts draws h hnext hpos ih =>
    rw [contLoop]
    simp only [dif_pos h, hnext, if_neg hpos]
    omega
  | case7 result currentPos attempts draws h =>
    rw [contLoop]
    simp only [dif_neg h]
    omega

/-- C6 (amended): the continuation always terminates (the loop is a
well-founded recursion), its output never exceeds max(startPos,
maxLength) tokens — so it never exceeds maxLength whenever the copied
verbatim prefix fits the budget, but the verbatim prefix itself is not
clipped — and with no matching chain prefix the loop aborts after at most
10 consecutive stalls. -/
theorem c6_continuation_bounds {α : Type} [LinearOrderedField α] (g : AnswerGenerator α)
    (tokens : List String) (startPos : Nat) (keywords : List String) (rng : Nat → α) :
    (generateThematicContinuationTokens g tokens startPos keywords rng).length ≤
      max startPos g.maxLength ∧
    (startPos ≤ g.maxLength →
      (generateThematicContinuationTokens g tokens startPos keywords rng).length ≤
        g.maxLength) ∧
    (g.chain.Chain = [] → ∀ result currentPos attempts draws,
      (contLoop g tokens keywords rng result currentPos attempts draws).1.length ≤
        result.length + (10 - attempts)) := by
  have hmain : (generateThematicContinuationTokens g tokens startPos keywords rng).length ≤
      max startPos g.maxLength := by
    unfold generateThematicContinuationTokens
    set result0 := if 0 < startPos then tokens.take startPos else [] with hres0
    have hlen0 : result0.length ≤ startPos := by
      rw [hres0]
      by_cases h0 : 0 < startPos
      · simp [h0]
      · simp [h0]
    have hloop := contLoop_length_le g tokens keywords rng result0 startPos 0 0
    by_cases hcond : (contLoop g tokens keywords rng result0 startPos 0 0).1.length <
        g.maxLength / 2 ∧ (contLoop g tokens keywords rng result0 startPos 0 0).2 <
        tokens.length
    · simp only [if_pos hcond, List.length_append, List.length_take]
      have hdiv : g.maxLength / 2 ≤ g.maxLength := Nat.div_le_self _ _
      omega
    · simp only [if_neg hcond]
      omega
  refine ⟨hmain, fun hle => ?_, fun hchain => contLoop_stall_bound g tokens keywords rng hchain⟩
  omega

/-- Witness for C6 (amended) at a concrete empty-chain model: the stall
bound and the length budget hold on a one-token source. -/
theorem c6_witness :
    (contLoop (genQ (NewMarkovTrainer ⟨3, 0⟩) 5) ["y"] [] (fun _ => 0) [] 0 0 0).1.length ≤
      0 + (10 - 0) ∧
    (generateThematicContinuationTokens (genQ (NewMarkovTrainer ⟨3, 0⟩) 5) ["y"] 0 []
      (fun _ => 0)).length ≤ 5 :=
  ⟨(c6_continuation_bounds (genQ (NewMarkovTrainer ⟨3, 0⟩) 5) ["y"] 0 []
      (fun _ => 0)).2.2 rfl [] 0 0 0,
   (c6_continuation_bounds (genQ (NewMarkovTrainer ⟨3, 0⟩) 5) ["y"] 0 []
      (fun _ => 0)).2.1 (by decide)⟩

/-- Counterexample for C6 as stated: with maxLength 5 and start position
12 on a 12-token sentence (no matching chain prefix), the produced token
sequence has 12 tokens, exceeding the configured maximum length. -/
theorem c6_counterexample :
    (generateThematicContinuationTokens (genQ (NewMarkovTrainer ⟨3, 0⟩) 5)
      (List.replicate 12 "y") 12 [] (fun _ => 0)).length = 12 ∧
    (genQ (NewMarkovTrainer ⟨3, 0⟩) 5).maxLength = 5 ∧ ¬ (12 ≤ 5) := by
  refine ⟨?_, rfl, by decide⟩
  rw [generateThematicContinuationTokens, contLoop]
  simp [genQ, NewMarkovTrainer]

theorem update_not_mem_append {β : Type} (m : List (String × β)) (key : String)
    (f : Option β → β) (h : key ∉ keys m) : update m key f = m ++ [(key, f none)] := by
  induction m with
  | nil => simp [update]
  | cons hd tl ih =>
    obtain ⟨k, v⟩ := hd
    have hk : k ≠ key := fun hk => h (by simp [keys, hk])
    have h' : key ∉ keys tl := fun hmem => h (by simp [keys]; right; simpa [keys] using hmem)
    have hlk : lookup tl key = lookup tl key := rfl
    simp [update, hk, lookup, ih h']

theorem indexVocabToken_chain (originalSentence token : String) (acc : MarkovChain) :
    (indexVocabToken originalSentence acc token).Chain = acc.Chain ∧
    (indexVocabToken originalSentence acc token).Sums = acc.Sums ∧
    (indexVocabToken originalSentence acc token).Order = acc.Order := by
  by_cases h : token = "<start>" ∨ token = "<end>" <;> simp [indexVocabToken, h]

theorem indexVocabSentence_chain (sentence : List String) (acc : MarkovChain) :
    (indexVocabSentence acc sentence).Chain = acc.Chain ∧
    (indexVocabSentence acc sentence).Sums = acc.Sums ∧
    (indexVocabSentence acc sentence).Order = acc.Order := by
  rw [indexVocabSentence]
  generalize joinSentence sentence = os
  induction sentence generalizing acc with
  | nil => simp
  | cons t ts ih =>
    rw [List.foldl_cons]
    have h1 := indexVocabToken_chain os t acc
    have h2 := ih (indexVocabToken os acc t)
    exact ⟨h2.1.trans h1.1, h2.2.1.trans h1.2.1, h2.2.2.trans h1.2.2⟩

theorem buildIndexAndVocab_chain (mc : MarkovChain) (sentences : List (List String)) :
    (buildIndexAndVocab mc sentences).Chain = mc.Chain ∧
    (buildIndexAndVocab mc sentences).Sums = mc.Sums ∧
    (buildIndexAndVocab mc sentences).Order = mc.Order := by
  rw [buildIndexAndVocab]
  have : ∀ (ss : List (List String)) (acc : MarkovChain),
      (ss.foldl indexVocabSentence acc).Chain = acc.Chain ∧
      (ss.foldl indexVocabSentence acc).Sums = acc.Sums ∧
      (ss.foldl indexVocabSentence acc).Order = acc.Order := by
    intro ss
    induction ss with
    | nil => intro acc; simp
    | cons s ss ih =>
      intro acc
      rw [List.foldl_cons]
      have h1 := indexVocabSentence_chain s acc
      have h2 := ih (indexVocabSentence acc s)
      exact ⟨h2.1.trans h1.1, h2.2.1.trans h1.2.1, h2.2.2.trans h1.2.2⟩
  simpa using this sentences mc

theorem nodup_foldl_addWindow (sentence : List String) (order : Nat) :
    ∀ (l : List Nat) (ch : List (String × List (String × Nat))),
      (keys ch).Nodup → (keys (l.foldl (addWindow sentence order) ch)).Nodup := by
  intro l
  induction l with
  | nil => intro ch h; simpa using h
  | cons i l ih =>
    intro ch h
    rw [List.foldl_cons]
    exact ih _ (nodup_keys_update _ _ _ h)

theorem processSentence_fields (mc : MarkovChain) (sentence : List String) :
    (processSentence mc sentence).Sums = mc.Sums ∧
    (processSentence mc sentence).Order = mc.Order ∧
    ((keys mc.Chain).Nodup → (keys (processSentence mc sentence).Chain).Nodup) := by
  by_cases h : sentence.length < mc.Order
  · rw [processSentence, if_pos h]
    exact ⟨rfl, rfl, fun hnd => hnd⟩
  · rw [processSentence, if_neg h]
    exact ⟨rfl, rfl, fun hnd => nodup_foldl_addWindow sentence mc.Order _ _ hnd⟩

theorem foldl_processSentence_fields (ss : List (List String)) :
    ∀ mc : MarkovChain,
      (ss.foldl processSentence mc).Sums = mc.Sums ∧
      (ss.foldl processSentence mc).Order = mc.Order ∧
      ((keys mc.Chain).Nodup → (keys (ss.foldl processSentence mc).Chain).Nodup) := by
  induction ss with
  | nil => intro mc; simp
  | cons s ss ih =>
    intro mc
    rw [List.foldl_cons]
    have h1 := processSentence_fields mc s
    have h2 := ih (processSentence mc s)
    exact ⟨h2.1.trans h1.1, h2.2.1.trans h1.2.1, fun hnd => h2.2.2 (h1.2.2 hnd)⟩

theorem foldl_sumsStep_append :
    ∀ (chain : List (String × List (String × Nat))) (acc : List (String × Nat)),
      (keys chain).Nodup → (∀ k ∈ keys chain, k ∉ keys acc) →
      chain.foldl sumsStep acc = acc ++ chain.map (fun pc => (pc.1, sumCounts pc.2)) := by
  intro chain
  induction chain with
  | nil => intro acc _ _; simp
  | cons hd tl ih =>
    intro acc hnd hdisj
    have hhd : hd.1 ∉ keys acc := hdisj hd.1 (by simp [keys])
    have hnd' : (keys tl).Nodup := by
      have := hnd
      simp [keys] at this
      simpa [keys] using this.2
    have hhd_tl : hd.1 ∉ keys tl := by
      have := hnd
      simp [keys] at this
      intro hmem
      obtain ⟨x, hx⟩ := (by simpa [keys] using hmem : ∃ x, (hd.1, x) ∈ tl)
      exact this.1 x hx
    have hdisj' : ∀ k ∈ keys tl, k ∉ keys (acc ++ [(hd.1, sumCounts hd.2)]) := by
      intro k hk
      simp [keys]
      constructor
      · have := hdisj k (by simp [keys]; right; simpa [keys] using hk)
        simpa [keys] using this
      · intro he
        exact hhd_tl (he ▸ hk)
    rw [List.foldl_cons]
    have hstep : sumsStep acc hd = acc ++ [(hd.1, sumCounts hd.2)] :=
      update_not_mem_append acc hd.1 _ hhd
    rw [hstep, ih _ hnd' hdisj', List.map_cons, List.append_assoc]
    rfl

theorem lookup_map_sumCounts (m : List (String × List (String × Nat))) (k : String) :
    lookup (m.map (fun pc => (pc.1, sumCounts pc.2))) k = (lookup m k).map sumCounts := by
  induction m with
  | nil => simp [lookup]
  | cons hd tl ih =>
    by_cases h : hd.1 = k
    · simp [lookup, h]
    · simp [lookup, h, ih]

/-- C1: after Train succeeds on a non-empty corpus (from a fresh
trainer), Sums is exactly the per-prefix full summation over Chain: the
key sets coincide and every prefix maps to the sum of its successor
counts. -/
theorem c1_sums_invariant (config : TrainConfig) (ss : List (List String)) (h : ss ≠ []) :
    (Train (NewMarkovTrainer config) ss).2 = none ∧
    keys (Train (NewMarkovTrainer config) ss).1.Sums =
      keys (Train (NewMarkovTrainer config) ss).1.Chain ∧
    ∀ p suffixes, lookup (Train (NewMarkovTrainer config) ss).1.Chain p = some suffixes →
      lookup (Train (NewMarkovTrainer config) ss).1.Sums p = some (sumCounts suffixes) := by
  have htrain : Train (NewMarkovTrainer config) ss =
      (calculateSums (ss.foldl processSentence (buildIndexAndVocab (NewMarkovTrainer config) ss)),
        none) := by
    rw [Train, if_neg h]
  set mc1 := buildIndexAndVocab (NewMarkovTrainer config) ss with hmc1
  set mc2 := ss.foldl processSentence mc1 with hmc2
  have hb := buildIndexAndVocab_chain (NewMarkovTrainer config) ss
  have hf := foldl_processSentence_fields ss mc1
  have hsums2 : mc2.Sums = [] := by
    rw [hmc2, hf.1, hmc1, hb.2.1]
    rfl
  have hchain_nodup : (keys mc2.Chain).Nodup := by
    apply hf.2.2
    rw [hmc1, hb.1]
    simp [NewMarkovTrainer, keys]
  have hcalc : (calculateSums mc2).Sums =
      mc2.Chain.map (fun pc => (pc.1, sumCounts pc.2)) := by
    rw [calculateSums]
    have := foldl_sumsStep_append mc2.Chain mc2.Sums hchain_nodup
      (by rw [hsums2]; intro k _ hk; simp [keys] at hk)
    rw [this, hsums2]
    rfl
  have hcalcChain : (calculateSums mc2).Chain = mc2.Chain := rfl
  refine ⟨by rw [htrain], ?_, ?_⟩
  · rw [htrain]
    show keys (calculateSums mc2).Sums = keys (calculateSums mc2).Chain
    rw [hcalc, hcalcChain]
    simp [keys, List.map_map]
  · intro p suffixes hp
    have hp' : lookup mc2.Chain p = some suffixes := by
      rw [htrain] at hp
      exact hp
    rw [htrain]
    show lookup (calculateSums mc2).Sums p = some (sumCounts suffixes)
    rw [hcalc, lookup_map_sumCounts, hp']
    rfl

/-- Witness for C1 on a concrete two-sentence corpus. -/
theorem c1_witness :
    (Train (NewMarkovTrainer ⟨2, 0⟩) [["<start>", "a", "<end>"], ["<start>", "a", "b", "<end>"]]).2 =
      none ∧
    keys (Train (NewMarkovTrainer ⟨2, 0⟩)
        [["<start>", "a", "<end>"], ["<start>", "a", "b", "<end>"]]).1.Sums =
      keys (Train (NewMarkovTrainer ⟨2, 0⟩)
        [["<start>", "a", "<end>"], ["<start>", "a", "b", "<end>"]]).1.Chain ∧
    ∀ p suffixes,
      lookup (Train (NewMarkovTrainer ⟨2, 0⟩)
        [["<start>", "a", "<end>"], ["<start>", "a", "b", "<end>"]]).1.Chain p = some suffixes →
      lookup (Train (NewMarkovTrainer ⟨2, 0⟩)
        [["<start>", "a", "<end>"], ["<start>", "a", "b", "<end>"]]).1.Sums p =
        some (sumCounts suffixes) :=
  c1_sums_invariant ⟨2, 0⟩ [["<start>", "a", "<end>"], ["<start>", "a", "b", "<end>"]] (by decide)

theorem insertScored_perm (x : String × Nat) (l : List (String × Nat)) :
    (insertScored x l).Perm (x :: l) := by
  induction l with
  | nil => simp [insertScored]
  | cons y ys ih =>
    by_cases h : y.2 ≤ x.2
    · simp [insertScored, h]
    · simp only [insertScored, if_neg h]
      exact (List.Perm.cons y ih).trans (List.Perm.swap x y ys)

theorem insertScored_sorted (x : String × Nat) (l : List (String × Nat))
    (h : List.Pairwise (fun a b => b.2 ≤ a.2) l) :
    List.Pairwise (fun a b => b.2 ≤ a.2) (insertScored x l) := by
  induction l with
  | nil => simp [insertScored]
  | cons y ys ih =>
    by_cases hc : y.2 ≤ x.2
    · simp only [insertScored, if_pos hc]
      constructor
      · intro z hz
        rcases List.mem_cons.mp hz with hz | hz
        · subst hz; exact hc
        · have := List.rel_of_pairwise_cons h hz
          omega
      · exact h
    · simp only [insertScored, if_neg hc]
      constructor
      · intro z hz
        have hz' := (insertScored_perm x ys).mem_iff.mp hz
        rcases List.mem_cons.mp hz' with hz' | hz'
        · subst hz'; omega
        · exact List.rel_of_pairwise_cons h hz'
      · exact ih (List.Pairwise.sublist (List.sublist_cons_self y ys) h)

theorem sortScoredDesc_perm (l : List (String × Nat)) : (sortScoredDesc l).Perm l := by
  induction l with
  | nil => simp [sortScoredDesc]
  | cons x xs ih =>
    have h1 : (sortScoredDesc (x :: xs)) = insertScored x (sortScoredDesc xs) := rfl
    rw [h1]
    exact (insertScored_perm x (sortScoredDesc xs)).trans (List.Perm.cons x ih)

theorem sortScoredDesc_sorted (l : List (String × Nat)) :
    List.Pairwise (fun a b => b.2 ≤ a.2) (sortScoredDesc l) := by
  induction l with
  | nil => simp [sortScoredDesc]
  | cons x xs ih => exact insertScored_sorted x (sortScoredDesc xs) ih

theorem scoreFoldInner_lookupD :
    ∀ (l : List String) (acc : List (String × Nat)) (s : String),
      lookupD (l.foldl (fun a x => update a x (fun o => o.getD 0 + 1)) acc) s 0 =
        lookupD acc s 0 + l.count s := by
  intro l
  induction l with
  | nil => intro acc s; simp
  | cons x xs ih =>
    intro acc s
    rw [List.foldl_cons]
    rw [ih]
    by_cases h : x = s
    · subst h
      rw [lookupD, lookup_update_self]
      simp [lookupD, List.count_cons]
      omega
    · rw [lookupD, lookup_update_ne _ _ _ _ h]
      simp [lookupD, List.count_cons, h]

theorem scoreFoldInner_nodup :
    ∀ (l : List String) (acc : List (String × Nat)),
      (keys acc).Nodup →
      (keys (l.foldl (fun a x => update a x (fun o => o.getD 0 + 1)) acc)).Nodup := by
  intro l
  induction l with
  | nil => intro acc h; simpa using h
  | cons x xs ih =>
    intro acc h
    rw [List.foldl_cons]
    exact ih _ (nodup_keys_update _ _ _ h)

/-- Per-sentence retrieval score as the spec states it: the number of
queried keywords whose index entry contains the sentence. -/
def searchScore (mc : MarkovChain) (keywords : List String) (s : String) : Nat :=
  keywords.countP (fun k => ((lookup mc.Index k).getD []).contains s)

theorem sentenceScores_lookupD (mc : MarkovChain) (keywords : List String)
    (hidx : ∀ e ∈ mc.Index, e.2.Nodup) (s : String) :
    lookupD (sentenceScores mc keywords) s 0 = searchScore mc keywords s := by
  have hgen : ∀ (kws : List String) (acc : List (String × Nat)),
      lookupD (kws.foldl (fun a keyword =>
        match lookup mc.Index keyword with
        | some sentences => sentences.foldl (fun a2 x => update a2 x (fun o => o.getD 0 + 1)) a
        | none => a) acc) s 0 =
      lookupD acc s 0 + kws.countP (fun k => ((lookup mc.Index k).getD []).contains s) := by
    intro kws
    induction kws with
    | nil => intro acc; simp
    | cons k ks ih =>
      intro acc
      rw [List.foldl_cons, ih]
      cases hk : lookup mc.Index k with
      | none => simp [List.countP_cons, hk]
      | some sentences =>
        have hnd : sentences.Nodup := hidx (k, sentences) (lookup_mem _ _ _ hk)
        rw [scoreFoldInner_lookupD]
        simp only [List.countP_cons, hk, Option.getD_some]
        by_cases hs : s ∈ sentences
        · have : sentences.count s = 1 := List.count_eq_one_of_mem hnd hs
          simp [this, hs]
          omega
        · have : sentences.count s = 0 := List.count_eq_zero.mpr hs
          simp [this, hs]
  have := hgen keywords []
  simpa [sentenceScores, searchScore, lookupD, lookup] using this

theorem sentenceScores_nodup_keys (mc : MarkovChain) (keywords : List String) :
    (keys (sentenceScores mc keywords)).Nodup := by
  have hgen : ∀ (kws : List String) (acc : List (String × Nat)), (keys acc).Nodup →
      (keys (kws.foldl (fun a keyword =>
        match lookup mc.Index keyword with
        | some sentences => sentences.foldl (fun a2 x => update a2 x (fun o => o.getD 0 + 1)) a
        | none => a) acc)).Nodup := by
    intro kws
    induction kws with
    | nil => intro acc h; simpa using h
    | cons k ks ih =>
      intro acc h
      rw [List.foldl_cons]
      cases hk : lookup mc.Index k with
      | none => simpa [hk] using ih acc h
      | some sentences =>
        have := scoreFoldInner_nodup sentences acc h
        simpa [hk] using ih _ this
  simpa [sentenceScores, keys] using hgen keywords [] (by simp [keys])

/-- C4 (amended): for every admissible iteration order of the score map,
Search returns at most `limit` sentences, the score of every sentence is
the number of distinct queried keywords whose index entry contains it,
and the returned list is sorted by non-increasing score; the order of
equal-score sentences depends on the Go map iteration order and is not
deterministic. -/
theorem c4_search_sorted_bounded (mc : MarkovChain) (keywords : List String)
    (limit : Nat) (scored : List (String × Nat)) (hkw : keywords.Nodup)
    (hidx : ∀ e ∈ mc.Index, e.2.Nodup)
    (hperm : scored.Perm (sentenceScores mc keywords)) (hlim : 0 < limit) :
    (SearchOrd limit scored).length ≤ limit ∧
    (∀ s, lookupD (sentenceScores mc keywords) s 0 = searchScore mc keywords s) ∧
    List.Pairwise (fun s1 s2 => searchScore mc keywords s2 ≤ searchScore mc keywords s1)
      (SearchOrd limit scored) := by
  refine ⟨?_, fun s => sentenceScores_lookupD mc keywords hidx s, ?_⟩
  · simp [SearchOrd]
  · have hsorted := sortScoredDesc_sorted scored
    have htake : List.Pairwise (fun a b => b.2 ≤ a.2) ((sortScoredDesc scored).take limit) :=
      List.Pairwise.sublist (List.take_sublist _ _) hsorted
    have hmemscore : ∀ p ∈ (sortScoredDesc scored).take limit,
        p.2 = searchScore mc keywords p.1 := by
      intro p hp
      have hp1 : p ∈ sortScoredDesc scored := List.mem_of_mem_take hp
      have hp2 : p ∈ scored := (sortScoredDesc_perm scored).mem_iff.mp hp1
      have hp3 : p ∈ sentenceScores mc keywords := hperm.mem_iff.mp hp2
      have hl : lookup (sentenceScores mc keywords) p.1 = some p.2 :=
        lookup_of_mem_nodup _ _ _ hp3 (sentenceScores_nodup_keys mc keywords)
      have := sentenceScores_lookupD mc keywords hidx p.1
      rw [lookupD, hl] at this
      simpa using this
    rw [SearchOrd, List.pairwise_map]
    refine List.Pairwise.imp_of_mem ?_ htake
    intro a b ha hb hr
    rw [← hmemscore a ha, ← hmemscore b hb]
    exact hr

/-- Concrete model trained on two sentences sharing the keyword "k", used
to exercise retrieval ties. -/
def mcC4 : MarkovChain :=
  (Train (NewMarkovTrainer ⟨3, 0⟩)
    [["<start>", "k", "a", "<end>"], ["<start>", "k", "b", "<end>"]]).1

/-- Witness for C4 (amended) on the concrete tie model with the identity
iteration order. -/
theorem c4_witness :
    (SearchOrd 2 (sentenceScores mcC4 ["k"])).length ≤ 2 ∧
    lookupD (sentenceScores mcC4 ["k"]) "<start> k a <end>" 0 =
      searchScore mcC4 ["k"] "<start> k a <end>" ∧
    List.Pairwise (fun s1 s2 => searchScore mcC4 ["k"] s2 ≤ searchScore mcC4 ["k"] s1)
      (SearchOrd 2 (sentenceScores mcC4 ["k"])) := by
  obtain ⟨h1, h2, h3⟩ := c4_search_sorted_bounded mcC4 ["k"] 2 (sentenceScores mcC4 ["k"])
    (by decide) (by decide) (List.Perm.refl _) (by decide)
  exact ⟨h1, h2 _, h3⟩

/-- Counterexample for C4 as stated: on a model where two sentences tie
with score 1, the reversed (admissible) iteration order of the score map
makes Search return the tied sentences against their first-seen indexing
order, so the tie-break is not deterministic by first-seen order. -/
theorem c4_counterexample :
    keys (sentenceScores mcC4 ["k"]) = ["<start> k a <end>", "<start> k b <end>"] ∧
    (List.reverse (sentenceScores mcC4 ["k"])).Perm (sentenceScores mcC4 ["k"]) ∧
    SearchGo mcC4 ["k"] 2 List.reverse = ["<start> k b <end>", "<start> k a <end>"] ∧
    searchScore mcC4 ["k"] "<start> k a <end>" = searchScore mcC4 ["k"] "<start> k b <end>" ∧
    SearchGo mcC4 ["k"] 2 List.reverse ≠ ["<start> k a <end>", "<start> k b <end>"] := by
  exact ⟨by decide, List.reverse_perm _, by decide, by decide, by decide⟩

/-- Histogram count of one (token, context-key) cell of the entropy
accumulation. -/
def histLookup (tc : List (String × List (String × Nat))) (token key : String) : Nat :=
  lookupD (lookupD tc token []) key 0

/-- Flat-increment characterisation of the histogram the code builds:
each chain entry contributes, under its context key, the multiplicity of
the token in the parsed prefix plus one per successor entry equal to the
token. -/
def histSpecFlat (chain : List (String × List (String × Nat))) (token key : String) : Nat :=
  (chain.map (fun pc =>
    if createContextKey (parsePrefixKey pc.1) = key then
      (parsePrefixKey pc.1).count token + pc.2.countP (fun sc => sc.1 = token)
    else 0)).sum

/-- Count-weighted histogram.  Modelled from the spec: "each (token,
context-key) observation increments that token's context histogram by the
underlying transition count Chain[prefix][successor], not by a flat
+1". -/
def histSpecWeighted (chain : List (String × List (String × Nat)))
    (token key : String) : Nat :=
  (chain.map (fun pc =>
    if createContextKey (parsePrefixKey pc.1) = key then
      (pc.2.map (fun sc =>
        sc.2 * ((parsePrefixKey pc.1).count token + (if sc.1 = token then 1 else 0)))).sum
    else 0)).sum

theorem histLookup_addTokenContext (tok : String) (ctx : List String)
    (tc : List (String × List (String × Nat))) (t k : String) :
    histLookup (addTokenContext tok ctx tc) t k =
      histLookup tc t k + (if tok = t ∧ createContextKey ctx = k then 1 else 0) := by
  by_cases ht : tok = t
  · subst ht
    simp only [histLookup, addTokenContext, lookupD, lookup_update_self, Option.getD_some]
    by_cases hk : createContextKey ctx = k
    · subst hk
      simp only [lookup_update_self, Option.getD_some]
      simp
    · rw [lookup_update_ne _ _ _ _ hk]
      simp [hk]
  · simp only [histLookup, addTokenContext, lookupD]
    rw [lookup_update_ne _ _ _ _ ht]
    simp [ht]

theorem histLookup_foldl_prefixTokens (ctx : List String) :
    ∀ (toks : List String) (tc : List (String × List (String × Nat))) (t k : String),
      histLookup (toks.foldl (fun a tok => addTokenContext tok ctx a) tc) t k =
        histLookup tc t k + (if createContextKey ctx = k then toks.count t else 0) := by
  intro toks
  induction toks with
  | nil => intro tc t k; simp
  | cons x xs ih =>
    intro tc t k
    rw [List.foldl_cons, ih, histLookup_addTokenContext]
    by_cases hk : createContextKey ctx = k
    · by_cases hx : x = t
      · simp [hk, hx, List.count_cons]
        omega
      · simp [hk, hx, List.count_cons]
    · simp [hk]

theorem histLookup_foldl_suffixes (ctx : List String) :
    ∀ (sux : List (String × Nat)) (tc : List (String × List (String × Nat))) (t k : String),
      histLookup (sux.foldl (fun a sc => addTokenContext sc.1 ctx a) tc) t k =
        histLookup tc t k +
          (if createContextKey ctx = k then sux.countP (fun sc => sc.1 = t) else 0) := by
  intro sux
  induction sux with
  | nil => intro tc t k; simp
  | cons x xs ih =>
    intro tc t k
    rw [List.foldl_cons, ih, histLookup_addTokenContext]
    by_cases hk : createContextKey ctx = k
    · by_cases hx : x.1 = t
      · simp [hk, hx, List.countP_cons]
        omega
      · simp [hk, hx, List.countP_cons]
    · simp [hk]

theorem tokenContextsOf_histLookup (chain : List (String × List (String × Nat)))
    (t k : String) : histLookup (tokenContextsOf chain) t k = histSpecFlat chain t k := by
  have hgen : ∀ (ch : List (String × List (String × Nat)))
      (acc : List (String × List (String × Nat))),
      histLookup (ch.foldl (fun a pc =>
        pc.2.foldl (fun a2 sc => addTokenContext sc.1 (parsePrefixKey pc.1) a2)
          ((parsePrefixKey pc.1).foldl
            (fun a2 tok => addTokenContext tok (parsePrefixKey pc.1) a2) a)) acc) t k =
        histLookup acc t k + histSpecFlat ch t k := by
    intro ch
    induction ch with
    | nil => intro acc; simp [histSpecFlat]
    | cons pc rest ih =>
      intro acc
      rw [List.foldl_cons, ih, histLookup_foldl_suffixes, histLookup_foldl_prefixTokens]
      simp only [histSpecFlat, List.map_cons, List.sum_cons]
      by_cases hk : createContextKey (parsePrefixKey pc.1) = k
      · simp only [if_pos hk]
        omega
      · simp only [if_neg hk]
        omega
  have h0 : histLookup [] t k = 0 := by
    simp [histLookup, lookupD, lookup]
  have := hgen chain []
  rw [h0] at this
  simpa [tokenContextsOf] using this

theorem foldl_sub_sum {γ : Type} (f : γ → ℝ) :
    ∀ (l : List γ) (a : ℝ), l.foldl (fun acc x => acc - f x) a = a - (l.map f).sum := by
  intro l
  induction l with
  | nil => intro a; simp
  | cons x xs ih =>
    intro a
    rw [List.foldl_cons, ih, List.map_cons, List.sum_cons]
    ring

/-- C2 (amended): the entropy histogram is built by flat +1 increments —
each chain entry contributes, under its context key, one observation per
occurrence of the token in the prefix and one per distinct successor
equal to the token (not weighted by the transition count) — and the
recorded entropy of a non-empty histogram is the Shannon entropy
−Σ p·log2 p of its count-normalized distribution. -/
theorem c2_entropy_flat_histogram :
    (∀ chain token key,
      histLookup (tokenContextsOf chain) token key = histSpecFlat chain token key) ∧
    (∀ (contexts : List (String × Nat)) (e : ℝ), sumCounts contexts ≠ 0 →
      calculateEntropyR contexts e →
      e = -((contexts.map (fun sc =>
        ((sc.2 : ℝ) / ((sumCounts contexts : Nat) : ℝ)) *
          Real.logb 2 ((sc.2 : ℝ) / ((sumCounts contexts : Nat) : ℝ)))).sum)) := by
  constructor
  · intro chain token key
    exact tokenContextsOf_histLookup chain token key
  · intro contexts e htot hrel
    rw [calculateEntropyR] at hrel
    simp only [if_neg htot] at hrel
    rw [hrel, foldl_sub_sum]
    ring

/-- Witness for C2 (amended) at a concrete one-entry chain and a
one-cell histogram. -/
theorem c2_witness :
    histLookup (tokenContextsOf [("[a]", [("t", 5)])]) "t" "a" =
      histSpecFlat [("[a]", [("t", 5)])] "t" "a" ∧
    ([(("a" : String), (1 : Nat))].foldl (fun acc sc =>
        acc - ((sc.2 : ℝ) / ((sumCounts [("a", 1)] : Nat) : ℝ)) *
          Real.logb 2 ((sc.2 : ℝ) / ((sumCounts [("a", 1)] : Nat) : ℝ))) 0) =
      -(([(("a" : String), (1 : Nat))].map (fun sc =>
        ((sc.2 : ℝ) / ((sumCounts [("a", 1)] : Nat) : ℝ)) *
          Real.logb 2 ((sc.2 : ℝ) / ((sumCounts [("a", 1)] : Nat) : ℝ)))).sum) := by
  refine ⟨c2_entropy_flat_histogram.1 [("[a]", [("t", 5)])] "t" "a",
    c2_entropy_flat_histogram.2 [("a", 1)] _ (by decide) ?_⟩
  rw [calculateEntropyR]
  simp only [if_neg (by decide : ¬ sumCounts [(("a" : String), (1 : Nat))] = 0)]

/-- Counterexample for C2 as stated: at the one-entry chain
Chain["[a]"]["t"] = 5 the code's histogram cell for ("t", "a") is 1 (a
flat increment), while the claimed count-weighted histogram cell is 5. -/
theorem c2_counterexample :
    histLookup (tokenContextsOf [("[a]", [("t", 5)])]) "t" "a" = 1 ∧
    histSpecWeighted [("[a]", [("t", 5)])] "t" "a" = 5 ∧ (1 : Nat) ≠ 5 := by
  refine ⟨by decide, by decide, by decide⟩

/-- Loaded model for the threshold check: the token "t" occurs as a
successor under two distinct one-token contexts, so its context histogram
is uniform over two cells and its entropy is exactly 1 bit. -/
def mcC7 : MarkovChain :=
  ⟨2, [("[a]", [("t", 1)]), ("[b]", [("t", 1)])], [("[a]", 1), ("[b]", 1)], [], [], []⟩

theorem calculateEntropyR_pair (e : ℝ)
    (h : calculateEntropyR [("a", 1), ("b", 1)] e) : e = 1 := by
  rw [calculateEntropyR] at h
  simp only [if_neg (by decide : ¬ sumCounts [(("a" : String), (1 : Nat)), ("b", 1)] = 0)] at h
  have hsum : ((sumCounts [(("a" : String), (1 : Nat)), ("b", 1)] : Nat) : ℝ) = 2 := by
    norm_num [sumCounts]
  rw [List.foldl_cons, List.foldl_cons, List.foldl_nil] at h
  rw [hsum] at h
  have hlog : Real.logb 2 ((1 : ℝ) / 2) = -1 := by
    rw [one_div, Real.logb_inv, Real.logb_self_eq_one (by norm_num)]
  norm_num at h
  rw [hlog] at h
  rw [h]
  norm_num

/-- C7 (code evaluation): for every generator the constructor builds over
the concrete model with MaxThematicEntropy = 0.5, the token "t" (entropy
exactly 1 bit, above the configured threshold) is still classified
thematic, because isThematicToken compares against the hard-coded 2.0 and
the Config field is never read. -/
theorem c7_threshold_not_honoured (g : AnswerGenerator ℝ) (cfg : Config ℝ)
    (hthr : cfg.MaxThematicEntropy = 1 / 2) (h : NewAnswerGeneratorRel mcC7 cfg g) :
    isThematicToken g "t" = true ∧
    ∀ e : ℝ, lookup g.tokenEntropy "t" = some e → ¬ e < cfg.MaxThematicEntropy := by
  have h4 : AnalyzesTo mcC7 g.tokenEntropy := h.2.2.2
  have hctx : tokenContextsOf mcC7.Chain =
      [("a", [("a", 1)]), ("t", [("a", 1), ("b", 1)]), ("b", [("b", 1)])] := by decide
  rw [AnalyzesTo, hctx] at h4
  generalize hg : g.tokenEntropy = te at h4
  rcases h4 with _ | @⟨_, p1, _, _, ⟨hp1, he1⟩, h4⟩
  rcases h4 with _ | @⟨_, p2, _, _, ⟨hp2, he2⟩, h4⟩
  rcases h4 with _ | @⟨_, p3, _, _, ⟨hp3, he3⟩, h4⟩
  cases h4
  obtain ⟨p1k, p1v⟩ := p1
  obtain ⟨p2k, p2v⟩ := p2
  obtain ⟨p3k, p3v⟩ := p3
  have hp1k : p1k = "a" := hp1
  have hp2k : p2k = "t" := hp2
  have he2R : calculateEntropyR [("a", 1), ("b", 1)] p2v := he2
  have hval : p2v = 1 := calculateEntropyR_pair p2v he2R
  have hlk : lookup [(p1k, p1v), (p2k, p2v), (p3k, p3v)] "t" = some 1 := by
    subst hp1k hp2k hval
    simp [lookup]
  have hlookup : lookup g.tokenEntropy "t" = some 1 := by
    rw [hg]
    exact hlk
  constructor
  · rw [isThematicToken, hlookup]
    simp only [decide_eq_true_eq]
    norm_num
  · intro e he
    rw [hlk] at he
    injection he with hinj
    rw [← hinj, hthr]
    norm_num

theorem calculateEntropyR_single (e : ℝ)
    (h : calculateEntropyR [("a", 1)] e) : e = 0 := by
  rw [calculateEntropyR] at h
  simp only [if_neg (by decide : ¬ sumCounts [(("a" : String), (1 : Nat))] = 0)] at h
  have hsum : ((sumCounts [(("a" : String), (1 : Nat))] : Nat) : ℝ) = 1 := by
    norm_num [sumCounts]
  rw [List.foldl_cons, List.foldl_nil, hsum] at h
  norm_num [Real.logb_one] at h
  exact h

theorem calculateEntropyR_single_b (e : ℝ)
    (h : calculateEntropyR [("b", 1)] e) : e = 0 := by
  rw [calculateEntropyR] at h
  simp only [if_neg (by decide : ¬ sumCounts [(("b" : String), (1 : Nat))] = 0)] at h
  have hsum : ((sumCounts [(("b" : String), (1 : Nat))] : Nat) : ℝ) = 1 := by
    norm_num [sumCounts]
  rw [List.foldl_cons, List.foldl_nil, hsum] at h
  norm_num [Real.logb_one] at h
  exact h

theorem analyzesTo_mcC7 :
    AnalyzesTo mcC7 [("a", (0 : ℝ)), ("t", 1), ("b", 0)] := by
  have hctx : tokenContextsOf mcC7.Chain =
      [("a", [("a", 1)]), ("t", [("a", 1), ("b", 1)]), ("b", [("b", 1)])] := by decide
  rw [AnalyzesTo, hctx]
  refine List.Forall₂.cons ⟨rfl, ?_⟩ (List.Forall₂.cons ⟨rfl, ?_⟩
    (List.Forall₂.cons ⟨rfl, ?_⟩ List.Forall₂.nil))
  · rw [calculateEntropyR]
    simp only [if_neg (by decide : ¬ sumCounts [(("a" : String), (1 : Nat))] = 0)]
    have hsum : ((sumCounts [(("a" : String), (1 : Nat))] : Nat) : ℝ) = 1 := by
      norm_num [sumCounts]
    rw [List.foldl_cons, List.foldl_nil, hsum]
    norm_num [Real.logb_one]
  · rw [calculateEntropyR]
    simp only [if_neg (by decide : ¬ sumCounts [(("a" : String), (1 : Nat)), ("b", 1)] = 0)]
    have hsum : ((sumCounts [(("a" : String), (1 : Nat)), ("b", 1)] : Nat) : ℝ) = 2 := by
      norm_num [sumCounts]
    rw [List.foldl_cons, List.foldl_cons, List.foldl_nil, hsum]
    have hlog : Real.logb 2 ((1 : ℝ) / 2) = -1 := by
      rw [one_div, Real.logb_inv, Real.logb_self_eq_one (by norm_num)]
    norm_num
    rw [hlog]
    norm_num
  · rw [calculateEntropyR]
    simp only [if_neg (by decide : ¬ sumCounts [(("b" : String), (1 : Nat))] = 0)]
    have hsum : ((sumCounts [(("b" : String), (1 : Nat))] : Nat) : ℝ) = 1 := by
      norm_num [sumCounts]
    rw [List.foldl_cons, List.foldl_nil, hsum]
    norm_num [Real.logb_one]

/-- Witness for C7 at the concrete constructed generator with a Config
whose MaxThematicEntropy is 0.5. -/
theorem c7_witness :
    isThematicToken (⟨mcC7, true, 50, [("a", (0 : ℝ)), ("t", 1), ("b", 0)]⟩ :
      AnswerGenerator ℝ) "t" = true ∧
    ¬ (1 : ℝ) < (⟨50, true, 1 / 2⟩ : Config ℝ).MaxThematicEntropy := by
  have h := c7_threshold_not_honoured
    ⟨mcC7, true, 50, [("a", (0 : ℝ)), ("t", 1), ("b", 0)]⟩
    ⟨50, true, 1 / 2⟩ rfl ⟨rfl, rfl, rfl, analyzesTo_mcC7⟩
  exact ⟨h.1, h.2 1 rfl⟩

/-- C8: GenerateAnswer is total and returns the fixed clarification
message exactly when the extracted keyword set is empty — which happens
iff every token of the tokenized question is a stop-word (boundary
markers included), has Go byte-length ≤ 1, or is punctuation — and
returns the fixed not-found message whenever the search keywords score no
indexed sentence, for every admissible Go map iteration order. -/
theorem c8_fallback_messages {α : Type} [LinearOrderedField α] (g : AnswerGenerator α)
    (rng : Nat → α) (enum : List (String × Nat) → List (String × Nat))
    (henum : ∀ m, (enum m).Perm m) (question : String) :
    (extractKeywords g question = [] →
      GenerateAnswer g rng enum question = "Пожалуйста, задайте вопрос.") ∧
    (extractKeywords g question = [] ↔
      ∀ token ∈ Tokenize g.keepPunctuation question,
        token ∈ stopWords ∨ token.utf8ByteSize ≤ 1 ∨ isPunctuation token = true) ∧
    (extractKeywords g question ≠ [] →
      sentenceScores g.chain (searchKeywordsOf g (extractKeywords g question)) = [] →
      GenerateAnswer g rng enum question =
        "К сожалению, я не нашел информации по вашему вопросу в изученном материале.") := by
  refine ⟨fun h => by simp [GenerateAnswer, h], ?_, fun hne hscores => ?_⟩
  · rw [extractKeywords, List.filter_eq_nil_iff]
    constructor
    · intro h token ht
      have h2 := h token ht
      by_cases h3 : token ∈ stopWords
      · exact Or.inl h3
      by_cases h4 : token.utf8ByteSize ≤ 1
      · exact Or.inr (Or.inl h4)
      by_cases h5 : isPunctuation token = true
      · exact Or.inr (Or.inr h5)
      exfalso
      apply h2
      simp [h3, h5]
      omega
    · intro h token ht
      rcases h token ht with h3 | h4 | h5
      · simp [h3]
      · simp
        intro _ h6
        omega
      · simp [h5]
  · have henil : enum (sentenceScores g.chain
        (searchKeywordsOf g (extractKeywords g question))) = [] := by
      rw [hscores]
      exact List.Perm.eq_nil (henum [])
    simp only [GenerateAnswer, if_neg hne, SearchGo, henil]
    simp [SearchOrd, sortScoredDesc]

/-- Witness for C8: the empty question yields the clarification message
and an unmatched keyword yields the not-found message on a fresh empty
model. -/
theorem c8_witness :
    GenerateAnswer (genQ (NewMarkovTrainer ⟨3, 0⟩) 50) (fun _ => 0) id "" =
      "Пожалуйста, задайте вопрос." ∧
    GenerateAnswer (genQ (NewMarkovTrainer ⟨3, 0⟩) 50) (fun _ => 0) id "qqq" =
      "К сожалению, я не нашел информации по вашему вопросу в изученном материале." :=
  ⟨(c8_fallback_messages (genQ (NewMarkovTrainer ⟨3, 0⟩) 50) (fun _ => 0) id
      (fun m => List.Perm.refl m) "").1 (by decide),
   (c8_fallback_messages (genQ (NewMarkovTrainer ⟨3, 0⟩) 50) (fun _ => 0) id
      (fun m => List.Perm.refl m) "qqq").2.2 (by decide) (by decide)⟩

end MarkovSpec
